import Mathlib

/-!
Verification of the cfgone configuration loader (src/cfgone/core.py).

The embedding models Python values by the mutual inductive family
`PyVal`/`PyList`/`PyFields` (scalars, lists, dicts, and references to
`DictToObj` instances living on an explicit heap).  Python dicts are
modelled as ordered association lists with unique keys (Python dict keys
are unique and insertion-ordered).  Paths are POSIX strings taken in
normal form: `os.path.abspath` is modelled as prefixing the working
directory to relative paths, normalization being the identity on the
normal-form paths used throughout.  The filesystem is a map from absolute
path to the already-parsed YAML document of the file (the YAML parser is
an external collaborator; parse errors are therefore not modelled, while
`yaml.safe_load(f) or {}` is modelled by `orEmptyDict`).  Recursion of the
loader is fuel-indexed; the public entry point supplies fuel
`files.length + 1`, which exceeds the depth any run can reach since every
level of recursion adds a distinct existing absolute path to the visited
set.
-/

/-! Python-like runtime values: None, bool, int, str, list, dict, and a
reference to a `DictToObj` instance on the heap (`ref`). -/

mutual
inductive PyVal where
  | none
  | bool (b : Bool)
  | int (n : Int)
  | str (s : String)
  | list (xs : PyList)
  | dict (entries : PyFields)
  | ref (a : Nat)

inductive PyList where
  | nil
  | cons (v : PyVal) (rest : PyList)

inductive PyFields where
  | nil
  | cons (k : String) (v : PyVal) (rest : PyFields)
end

mutual
def PyVal.beq : PyVal → PyVal → Bool
  | .none, .none => true
  | .bool a, .bool b => a == b
  | .int a, .int b => a == b
  | .str a, .str b => a == b
  | .list a, .list b => PyList.beq a b
  | .dict a, .dict b => PyFields.beq a b
  | .ref a, .ref b => a == b
  | _, _ => false

def PyList.beq : PyList → PyList → Bool
  | .nil, .nil => true
  | .cons v r, .cons v' r' => PyVal.beq v v' && PyList.beq r r'
  | _, _ => false

def PyFields.beq : PyFields → PyFields → Bool
  | .nil, .nil => true
  | .cons k v r, .cons k' v' r' => k == k' && PyVal.beq v v' && PyFields.beq r r'
  | _, _ => false
end

mutual
theorem pyVal_beq_iff : ∀ a b : PyVal, PyVal.beq a b = true ↔ a = b
  | .none, b => by cases b <;> simp [PyVal.beq]
  | .bool x, b => by cases b <;> simp [PyVal.beq]
  | .int x, b => by cases b <;> simp [PyVal.beq]
  | .str x, b => by cases b <;> simp [PyVal.beq]
  | .list xs, b => by
      cases b <;> simp [PyVal.beq]
      exact pyList_beq_iff xs _
  | .dict d, b => by
      cases b <;> simp [PyVal.beq]
      exact pyFields_beq_iff d _
  | .ref a, b => by cases b <;> simp [PyVal.beq]

theorem pyList_beq_iff : ∀ a b : PyList, PyList.beq a b = true ↔ a = b
  | .nil, b => by cases b <;> simp [PyList.beq]
  | .cons v r, b => by
      cases b with
      | nil => simp [PyList.beq]
      | cons v' r' => simp [PyList.beq, pyVal_beq_iff v v', pyList_beq_iff r r']

theorem pyFields_beq_iff : ∀ a b : PyFields, PyFields.beq a b = true ↔ a = b
  | .nil, b => by cases b <;> simp [PyFields.beq]
  | .cons k v r, b => by
      cases b with
      | nil => simp [PyFields.beq]
      | cons k' v' r' =>
          simp [PyFields.beq, pyVal_beq_iff v v', pyFields_beq_iff r r', and_assoc]
end

instance : DecidableEq PyVal := fun a b => decidable_of_iff _ (pyVal_beq_iff a b)
instance : DecidableEq PyList := fun a b => decidable_of_iff _ (pyList_beq_iff a b)
instance : DecidableEq PyFields := fun a b => decidable_of_iff _ (pyFields_beq_iff a b)

/-- Convenience conversion from a Lean list of pairs into `PyFields`. -/
def pyF : List (String × PyVal) → PyFields
  | [] => .nil
  | (k, v) :: rest => .cons k v (pyF rest)

/-- Convenience conversion from a Lean list into `PyList`. -/
def pyL : List PyVal → PyList
  | [] => .nil
  | v :: rest => .cons v (pyL rest)

/-- Structural induction on the `PyList` spine alone. -/
def PyList.indOn {motive : PyList → Prop} (l : PyList) (hnil : motive .nil)
    (hcons : ∀ v rest, motive rest → motive (.cons v rest)) : motive l :=
  match l with
  | .nil => hnil
  | .cons v rest => hcons v rest (PyList.indOn rest hnil hcons)

/-- Structural induction on the `PyFields` spine alone. -/
def PyFields.indOn {motive : PyFields → Prop} (l : PyFields) (hnil : motive .nil)
    (hcons : ∀ k v rest, motive rest → motive (.cons k v rest)) : motive l :=
  match l with
  | .nil => hnil
  | .cons k v rest => hcons k v rest (PyFields.indOn rest hnil hcons)

/-- Dict lookup, first occurrence (Python dict keys are unique). -/
def lookupKey : PyFields → String → Option PyVal
  | .nil, _ => Option.none
  | .cons k' v' rest, k => if k' = k then some v' else lookupKey rest k

/-- Python `d[key] = value`: overwrite in place if present, else append. -/
def setKey : PyFields → String → PyVal → PyFields
  | .nil, k, v => .cons k v .nil
  | .cons k' v' rest, k, v =>
      if k' = k then .cons k v rest else .cons k' v' (setKey rest k v)

/-- Python `d.pop(key, None)`: the popped value (if any) and the remaining
entries with that key removed, order otherwise preserved. -/
def popKey : PyFields → String → Option PyVal × PyFields
  | .nil, _ => (Option.none, .nil)
  | .cons k' v' rest, k =>
      if k' = k then (some v', rest)
      else
        let r := popKey rest k
        (r.1, .cons k' v' r.2)

/-- Python `type(x).__name__` for the modelled values. -/
def typeName : PyVal → String
  | .none => "NoneType"
  | .bool _ => "bool"
  | .int _ => "int"
  | .str _ => "str"
  | .list _ => "list"
  | .dict _ => "dict"
  | .ref _ => "DictToObj"

/-- Python truthiness of the modelled values: `None`, `False`, `0`, `""`,
`[]` and `{}` are falsy; a `DictToObj` instance is always truthy. -/
def isFalsy : PyVal → Bool
  | .none => true
  | .bool b => !b
  | .int n => n == 0
  | .str s => s == ""
  | .list .nil => true
  | .list (.cons _ _) => false
  | .dict .nil => true
  | .dict (.cons _ _ _) => false
  | .ref _ => false

/-- The list of keys of a dict, in order. -/
def keysList : PyFields → List String
  | .nil => []
  | .cons k _ rest => k :: keysList rest

/-- Uniqueness of the top-level keys of a dict. -/
def KeysNodup (f : PyFields) : Prop := (keysList f).Nodup

instance (f : PyFields) : Decidable (KeysNodup f) := by
  unfold KeysNodup; infer_instance

/-! # Deep merge (`_deep_merge` in core.py)

`mergeKeyInto b k v` is the body of the `for key, value in
override_dict.items()` loop for one entry: recursive merge when both the
present base value and the override value are dicts, whole-value
replacement for list-list conflicts and for everything else.
`mergeEntries` folds the loop over the override entries starting from a
copy of the base, and `deepMerge` adds the top-level guard returning the
override when either argument is not a dict. -/

mutual
def mergeEntries (b : PyFields) : PyFields → PyFields
  | .nil => b
  | .cons k v rest => mergeEntries (mergeKeyInto b k v) rest

def mergeKeyInto (b : PyFields) (k : String) (v : PyVal) : PyFields :=
  match lookupKey b k with
  | some (.dict bd) =>
      match v with
      | .dict od => setKey b k (.dict (mergeEntries bd od))
      | _ => setKey b k v
  | some (.list _) => setKey b k v
  | _ => setKey b k v
end

/-- Python `_deep_merge(base_dict, override_dict)`. -/
def deepMerge : PyVal → PyVal → PyVal
  | .dict b, .dict o => .dict (mergeEntries b o)
  | _, o => o

/-- Whether a value is a Python dict. -/
def PyVal.isDict : PyVal → Bool
  | .dict _ => true
  | _ => false

theorem lookupKey_setKey_self (b : PyFields) (k : String) (v : PyVal) :
    lookupKey (setKey b k v) k = some v := by
  induction b using PyFields.indOn with
  | hnil => simp [setKey, lookupKey]
  | hcons k' v' rest ih =>
      by_cases h : k' = k <;> simp [setKey, lookupKey, h, ih]

theorem lookupKey_setKey_ne (b : PyFields) (k k' : String) (v : PyVal)
    (h : k' ≠ k) : lookupKey (setKey b k v) k' = lookupKey b k' := by
  have hk : k ≠ k' := Ne.symm h
  induction b using PyFields.indOn with
  | hnil => simp [setKey, lookupKey, hk]
  | hcons k₀ v₀ rest ih =>
      by_cases h₀ : k₀ = k
      · subst h₀
        simp [setKey, lookupKey, hk]
      · simp [setKey, h₀, lookupKey, ih]

theorem keysList_setKey_mem (b : PyFields) (k : String) (v : PyVal)
    (h : k ∈ keysList b) : keysList (setKey b k v) = keysList b := by
  induction b using PyFields.indOn with
  | hnil => simp [keysList] at h
  | hcons k' v' rest ih =>
      by_cases h' : k' = k
      · simp [setKey, h', keysList]
      · have hrest : k ∈ keysList rest := by
          rcases (by simpa [keysList] using h : k = k' ∨ k ∈ keysList rest) with h1 | h2
          · exact absurd (Eq.symm h1) h'
          · exact h2
        simp [setKey, h', keysList, ih hrest]

theorem keysList_setKey_not_mem (b : PyFields) (k : String) (v : PyVal)
    (h : k ∉ keysList b) : keysList (setKey b k v) = keysList b ++ [k] := by
  induction b using PyFields.indOn with
  | hnil => simp [setKey, keysList]
  | hcons k' v' rest ih =>
      have h1 : k' ≠ k := fun hh => h (by simp [keysList, hh])
      have h2 : k ∉ keysList rest := fun hh => h (by simp [keysList, hh])
      simp [setKey, h1, keysList, ih h2]

theorem lookupKey_none_of_not_mem (b : PyFields) (k : String)
    (h : k ∉ keysList b) : lookupKey b k = Option.none := by
  induction b using PyFields.indOn with
  | hnil => simp [lookupKey]
  | hcons k' v' rest ih =>
      have h1 : k' ≠ k := fun hh => h (by simp [keysList, hh])
      have h2 : k ∉ keysList rest := fun hh => h (by simp [keysList, hh])
      simp [lookupKey, h1, ih h2]

theorem lookupKey_isSome_of_mem (b : PyFields) (k : String)
    (h : k ∈ keysList b) : ∃ w, lookupKey b k = some w := by
  induction b using PyFields.indOn with
  | hnil => simp [keysList] at h
  | hcons k' v' rest ih =>
      by_cases h' : k' = k
      · exact ⟨v', by simp [lookupKey, h']⟩
      · have hrest : k ∈ keysList rest := by
          rcases (by simpa [keysList] using h : k = k' ∨ k ∈ keysList rest) with h1 | h2
          · exact absurd (Eq.symm h1) h'
          · exact h2
        obtain ⟨w, hw⟩ := ih hrest
        exact ⟨w, by simp [lookupKey, h', hw]⟩

/-- One-entry effect of the merge loop on lookups at the merged key. -/
theorem lookupKey_mergeKeyInto_self (b : PyFields) (k : String) (v : PyVal) :
    lookupKey (mergeKeyInto b k v) k =
      match lookupKey b k, v with
      | some (.dict bd), .dict od => some (.dict (mergeEntries bd od))
      | _, _ => some v := by
  unfold mergeKeyInto
  cases hb : lookupKey b k with
  | none => simp [lookupKey_setKey_self]
  | some bv =>
      cases bv <;> cases v <;> simp [lookupKey_setKey_self]

theorem lookupKey_mergeKeyInto_ne (b : PyFields) (k k' : String) (v : PyVal)
    (h : k' ≠ k) : lookupKey (mergeKeyInto b k v) k' = lookupKey b k' := by
  unfold mergeKeyInto
  cases hb : lookupKey b k with
  | none => simp [lookupKey_setKey_ne _ _ _ _ h]
  | some bv =>
      cases bv <;> cases v <;> simp [lookupKey_setKey_ne _ _ _ _ h]

theorem keysList_mergeKeyInto (b : PyFields) (k : String) (v : PyVal) :
    keysList (mergeKeyInto b k v) =
      if k ∈ keysList b then keysList b else keysList b ++ [k] := by
  by_cases hmem : k ∈ keysList b
  · obtain ⟨w, hw⟩ := lookupKey_isSome_of_mem b k hmem
    cases w <;> cases v <;>
      simp [mergeKeyInto, hw, hmem, keysList_setKey_mem _ _ _ hmem]
  · have hb : lookupKey b k = Option.none := lookupKey_none_of_not_mem b k hmem
    simp [mergeKeyInto, hb, hmem, keysList_setKey_not_mem _ _ _ hmem]

theorem keysNodup_tail {ko : String} {vo : PyVal} {rest : PyFields}
    (hnd : KeysNodup (.cons ko vo rest)) :
    ko ∉ keysList rest ∧ KeysNodup rest := by
  have := hnd
  simp only [KeysNodup, keysList, List.nodup_cons] at this
  exact this

/-- Lookup characterization of the merge loop, by induction on the
override entries. -/
theorem lookupKey_mergeEntries : ∀ (oe : PyFields) (be : PyFields),
    KeysNodup oe → ∀ k, lookupKey (mergeEntries be oe) k =
      match lookupKey oe k, lookupKey be k with
      | Option.none, r => r
      | some (.dict od), some (.dict bd) => some (.dict (mergeEntries bd od))
      | some ov, _ => some ov
  | .nil, be, _, k => by simp [mergeEntries, lookupKey]
  | .cons ko vo rest, be, hnd, k => by
      obtain ⟨hko, hrest⟩ := keysNodup_tail hnd
      have ih := lookupKey_mergeEntries rest (mergeKeyInto be ko vo) hrest k
      show lookupKey (mergeEntries (mergeKeyInto be ko vo) rest) k = _
      rw [ih]
      by_cases hk : k = ko
      · subst hk
        have hnone : lookupKey rest k = Option.none :=
          lookupKey_none_of_not_mem _ _ hko
        have hhead : lookupKey (.cons k vo rest) k = some vo := by
          simp [lookupKey]
        rw [hnone, lookupKey_mergeKeyInto_self, hhead]
        cases hb : lookupKey be k with
        | none => cases vo <;> simp
        | some bv => cases bv <;> cases vo <;> simp
      · have hne : ko ≠ k := fun h => hk (Eq.symm h)
        have hhead : lookupKey (.cons ko vo rest) k = lookupKey rest k := by
          simp [lookupKey, hne]
        rw [hhead, lookupKey_mergeKeyInto_ne _ _ _ _ hk]

/-- Key-order characterization of the merge loop: base keys in base order,
then the new override keys in override order. -/
theorem keysList_mergeEntries : ∀ (oe : PyFields) (be : PyFields),
    KeysNodup oe → keysList (mergeEntries be oe) =
      keysList be ++ (keysList oe).filter (fun k => !(decide (k ∈ keysList be)))
  | .nil, be, _ => by simp [mergeEntries, keysList]
  | .cons ko vo rest, be, hnd => by
      obtain ⟨hko, hrest⟩ := keysNodup_tail hnd
      have ih := keysList_mergeEntries rest (mergeKeyInto be ko vo) hrest
      show keysList (mergeEntries (mergeKeyInto be ko vo) rest) = _
      rw [ih, keysList_mergeKeyInto]
      have hkeys : keysList (PyFields.cons ko vo rest) = ko :: keysList rest := rfl
      rw [hkeys]
      by_cases hmem : ko ∈ keysList be
      · rw [if_pos hmem, List.filter_cons_of_neg (by simp [hmem])]
      · rw [if_neg hmem, List.filter_cons_of_pos (by simp [hmem]),
          List.append_assoc]
        have hfilter :
            (keysList rest).filter (fun k => !(decide (k ∈ keysList be ++ [ko]))) =
            (keysList rest).filter (fun k => !(decide (k ∈ keysList be))) := by
          apply List.filter_congr
          intro a ha
          have hane : a ≠ ko := fun h => hko (h ▸ ha)
          simp [List.mem_append, hane]
        rw [hfilter]
        rfl

/-- Base dict of the worked example in the spec. -/
def mergeExampleBase : PyVal :=
  .dict (pyF [("a", .int 1), ("b", .dict (pyF [("c", .int 2), ("d", .int 3)]))])

/-- Override dict of the worked example in the spec. -/
def mergeExampleOverride : PyVal :=
  .dict (pyF [("b", .dict (pyF [("c", .int 4), ("e", .int 5)])), ("f", .int 6)])

/-- Expected result of the worked example in the spec. -/
def mergeExampleExpected : PyVal :=
  .dict (pyF [("a", .int 1),
              ("b", .dict (pyF [("c", .int 4), ("d", .int 3), ("e", .int 5)])),
              ("f", .int 6)])

/-- C1: `_deep_merge` returns the override whenever either input is not a
mapping; on two mappings the result is the base updated key-by-key by the
override, recursing only when both sides hold mappings and taking the
override value outright for sequence-sequence and all other conflicts
(characterized by lookups, with base key order preserved and new override
keys appended); and the worked example of the spec evaluates as stated. -/
theorem C1_deep_merge :
    (∀ b o : PyVal, b.isDict = false ∨ o.isDict = false → deepMerge b o = o)
    ∧ (∀ (oe be : PyFields), KeysNodup oe → ∀ k,
        lookupKey (mergeEntries be oe) k =
          match lookupKey oe k, lookupKey be k with
          | Option.none, r => r
          | some (.dict od), some (.dict bd) => some (.dict (mergeEntries bd od))
          | some ov, _ => some ov)
    ∧ (∀ (oe be : PyFields), KeysNodup oe →
        keysList (mergeEntries be oe) =
          keysList be ++ (keysList oe).filter (fun k => !(decide (k ∈ keysList be))))
    ∧ deepMerge mergeExampleBase mergeExampleOverride = mergeExampleExpected := by
  refine ⟨?_, ?_, ?_, ?_⟩
  · intro b o h
    cases b <;> cases o <;> simp [deepMerge, PyVal.isDict] at h ⊢
  · intro oe be h k
    exact lookupKey_mergeEntries oe be h k
  · intro oe be h
    exact keysList_mergeEntries oe be h
  · rfl

/-- C1 witness: the general clauses of `C1_deep_merge` applied at concrete
inputs, hypotheses discharged there. -/
theorem C1_deep_merge_witness :
    deepMerge (.int 3) (.str "x") = .str "x"
    ∧ lookupKey (mergeEntries (pyF [("a", .int 1)]) (pyF [("a", .int 2), ("b", .int 3)])) "a"
        = some (.int 2)
    ∧ keysList (mergeEntries (pyF [("a", .int 1)]) (pyF [("a", .int 2), ("b", .int 3)]))
        = ["a", "b"] := by
  refine ⟨C1_deep_merge.1 (.int 3) (.str "x") (by decide), ?_, ?_⟩
  · exact (C1_deep_merge.2.1 (pyF [("a", .int 2), ("b", .int 3)])
      (pyF [("a", .int 1)]) (by decide) "a").trans rfl
  · exact (C1_deep_merge.2.2.1 (pyF [("a", .int 2), ("b", .int 3)])
      (pyF [("a", .int 1)]) (by decide)).trans rfl

/-! # Path model

POSIX path strings in normal form.  `os.path.isabs`, `os.path.join`,
`os.path.dirname` are modelled directly; `os.path.abspath` is modelled as
prefixing the working directory to relative paths (its normalization step
is the identity on normal-form paths). -/

/-- Python `os.path.isabs` on POSIX: the path starts with a separator. -/
def isAbsPath (p : String) : Bool :=
  match p.toList with
  | '/' :: _ => true
  | _ => false

/-- Whether a path ends with a separator. -/
def endsWithSlash (a : String) : Bool :=
  match a.toList.reverse with
  | '/' :: _ => true
  | _ => false

/-- Python `os.path.join(a, b)` on POSIX: an absolute second component
discards the first; otherwise the components are joined with a single
separator unless the first is empty or already ends in one. -/
def joinPath (a b : String) : String :=
  if isAbsPath b then b
  else if a = "" || endsWithSlash a then a ++ b
  else a ++ "/" ++ b

/-- Python `os.path.dirname` on POSIX: everything before the last
separator, with trailing separators stripped unless the head is all
separators. -/
def dirname (p : String) : String :=
  let rcs := p.toList.reverse
  let headRev := rcs.dropWhile (fun c => c ≠ '/')
  if headRev.all (fun c => c = '/') then String.mk headRev.reverse
  else String.mk ((headRev.dropWhile (fun c => c = '/')).reverse)

/-- Python `os.path.abspath` relative to the working directory `cwd`,
on normal-form paths. -/
def abspath (cwd p : String) : String :=
  if isAbsPath p then p else joinPath cwd p

/-- Python `_resolve_config_path(config_path, base_dir)` from core.py. -/
def resolveConfigPath (configPath baseDir : String) : String :=
  if isAbsPath configPath then configPath else joinPath baseDir configPath

/-! # Config file loader (`_load_config_file` in core.py)

The filesystem `Fs` maps absolute normal-form paths to the already-parsed
document of each file (the YAML parser is an external collaborator, so
parse failures are not modelled; `yaml.safe_load(f) or {}` is modelled by
`orEmptyDict`).  Errors raised by the Python code are the constructors of
`ConfigErr`; `notMapping` models the uncaught `TypeError` that
`config_dict.pop` raises when the parsed document is truthy but not a
dict.  The recursion is fuel-indexed (`outOfFuel` is an artifact of the
embedding, unreachable from the public entry point `loadConfigFile`,
whose fuel `files.length + 1` exceeds the recursion depth of any run:
every level of recursion adds a distinct existing absolute path to the
visited set).  The mutated Python `visited_files` set is modelled by
threading the visited list through and returning it next to the result. -/

inductive ConfigErr where
  | circular (absPath : String)
  | notFound (path : String)
  | extendsNotList (path : String) (tyName : String)
  | extendsEntryNotString (path : String) (tyName : String)
  | notMapping (path : String) (tyName : String)
  | outOfFuel
deriving DecidableEq

/-- A filesystem: the process working directory and the parsed files,
keyed by absolute normal-form path. -/
structure Fs where
  cwd : String
  files : List (String × PyVal)

/-- Existence check plus read plus parse, fused: the parsed document of
the file at an absolute path, if the file exists. -/
def lookupFile : List (String × PyVal) → String → Option PyVal
  | [], _ => Option.none
  | (p, v) :: rest, q => if p = q then some v else lookupFile rest q

/-- Python `yaml.safe_load(f) or {}`: a falsy parse result (None, an
empty document, but also `0`, `""`, `[]`, `{}`) becomes the empty dict. -/
def orEmptyDict (v : PyVal) : PyVal := if isFalsy v then .dict .nil else v

/-- The `for extend_path in extends` loop of `_load_config_file`: each
entry must be a string, is resolved against `baseDir`, recursively loaded
by `loader` threading the visited set, and deep-merged onto the
accumulator as override. -/
def loadExtendsList
    (loader : String → List String → Except ConfigErr (PyVal × List String))
    (origPath : String) (baseDir : String) :
    PyList → PyVal → List String → Except ConfigErr (PyVal × List String)
  | .nil, merged, visited => .ok (merged, visited)
  | .cons e rest, merged, visited =>
      match e with
      | .str s =>
          match loader (resolveConfigPath s baseDir) visited with
          | .error err => .error err
          | .ok (cfg, visited') =>
              loadExtendsList loader origPath baseDir rest (deepMerge merged cfg) visited'
      | other => .error (.extendsEntryNotString origPath (typeName other))

/-- Python `_load_config_file(config_path, visited_files, base_dir)`,
fuel-indexed.  The base directory defaults to the directory of the given
path and is propagated unchanged to recursive loads; the circular check
on the absolute path precedes the existence check; the absolute path is
added to the visited set on entry and removed again on both the
no-extends return and the final return. -/
def loadAux (fs : Fs) : Nat → String → List String → Option String →
    Except ConfigErr (PyVal × List String)
  | 0, _, _, _ => .error .outOfFuel
  | fuel + 1, path, visited, baseDirOpt =>
      let baseDir := baseDirOpt.getD (dirname (abspath fs.cwd path))
      let absPath := abspath fs.cwd path
      if absPath ∈ visited then .error (.circular absPath)
      else
        match lookupFile fs.files absPath with
        | Option.none => .error (.notFound path)
        | some raw =>
            let visited1 := absPath :: visited
            match orEmptyDict raw with
            | .dict entries =>
                match popKey entries "extends" with
                | (Option.none, rest) => .ok (.dict rest, visited1.erase absPath)
                | (some PyVal.none, rest) => .ok (.dict rest, visited1.erase absPath)
                | (some (.list exts), rest) =>
                    match loadExtendsList
                        (fun p v => loadAux fs fuel p v (some baseDir))
                        path baseDir exts (.dict .nil) visited1 with
                    | .error err => .error err
                    | .ok (merged, visited2) =>
                        .ok (deepMerge merged (.dict rest), visited2.erase absPath)
                | (some other, _) => .error (.extendsNotList path (typeName other))
            | other => .error (.notMapping path (typeName other))

/-- Public result of `_load_config_file(path)` called at top level: no
visited set, no base directory, fuel beyond any reachable depth. -/
def loadConfigFile (fs : Fs) (path : String) : Except ConfigErr PyVal :=
  match loadAux fs (fs.files.length + 1) path [] Option.none with
  | .error e => .error e
  | .ok (v, _) => .ok v

/-- Modelled from the claim C4's words: a loader variant in which every
extends entry is resolved against the directory of the file declaring it
— each recursive load re-derives its base directory from the extended
file's own location instead of propagating the top-level one.  Used only
to compare against the source-faithful `loadAux`. -/
def loadDeclAux (fs : Fs) : Nat → String → List String →
    Except ConfigErr (PyVal × List String)
  | 0, _, _ => .error .outOfFuel
  | fuel + 1, path, visited =>
      let baseDir := dirname (abspath fs.cwd path)
      let absPath := abspath fs.cwd path
      if absPath ∈ visited then .error (.circular absPath)
      else
        match lookupFile fs.files absPath with
        | Option.none => .error (.notFound path)
        | some raw =>
            let visited1 := absPath :: visited
            match orEmptyDict raw with
            | .dict entries =>
                match popKey entries "extends" with
                | (Option.none, rest) => .ok (.dict rest, visited1.erase absPath)
                | (some PyVal.none, rest) => .ok (.dict rest, visited1.erase absPath)
                | (some (.list exts), rest) =>
                    match loadExtendsList
                        (fun p v => loadDeclAux fs fuel p v)
                        path baseDir exts (.dict .nil) visited1 with
                    | .error err => .error err
                    | .ok (merged, visited2) =>
                        .ok (deepMerge merged (.dict rest), visited2.erase absPath)
                | (some other, _) => .error (.extendsNotList path (typeName other))
            | other => .error (.notMapping path (typeName other))

/-- Top-level entry of the claim-side variant loader. -/
def loadDeclFile (fs : Fs) (path : String) : Except ConfigErr PyVal :=
  match loadDeclAux fs (fs.files.length + 1) path [] with
  | .error e => .error e
  | .ok (v, _) => .ok v

deriving instance DecidableEq for Except

/-- Merging a singleton dict into the empty dict yields the singleton. -/
theorem deepMerge_nil_single (k : String) (v : PyVal) :
    deepMerge (.dict .nil) (.dict (.cons k v .nil)) = .dict (.cons k v .nil) := by
  simp [deepMerge, mergeEntries, mergeKeyInto, lookupKey, setKey]

/-- Merging the empty dict into any dict leaves it unchanged. -/
theorem deepMerge_dict_nil (b : PyFields) :
    deepMerge (.dict b) (.dict .nil) = .dict b := by
  simp [deepMerge, mergeEntries]

/-! # Concrete filesystems for the extends-related claims -/

/-- Diamond: `D` extends `[A, B]`, `A` and `B` each extend `C`.  `C` sets
`x` and `z`; `A` overrides `x` and sets `y`; `B` overrides `y`; `D` has
its own field `own`. -/
def fsDiamond : Fs :=
  { cwd := "/w"
    files :=
      [ ("/d/D.yaml", .dict (pyF [("extends", .list (pyL [.str "A.yaml", .str "B.yaml"])), ("own", .str "D")]))
      , ("/d/A.yaml", .dict (pyF [("extends", .list (pyL [.str "C.yaml"])), ("x", .str "A"), ("y", .str "A")]))
      , ("/d/B.yaml", .dict (pyF [("extends", .list (pyL [.str "C.yaml"])), ("y", .str "B")]))
      , ("/d/C.yaml", .dict (pyF [("x", .str "C"), ("z", .str "C")])) ] }

/-- Diamond with arbitrary own-field payloads for the four files (`C`
declares `extends: null`, which the loader treats as absent). -/
def fsDiamondP (ownD ownA ownB ownC : PyFields) : Fs :=
  { cwd := "/w"
    files :=
      [ ("/d/D.yaml", .dict (.cons "extends" (.list (pyL [.str "A.yaml", .str "B.yaml"])) ownD))
      , ("/d/A.yaml", .dict (.cons "extends" (.list (pyL [.str "C.yaml"])) ownA))
      , ("/d/B.yaml", .dict (.cons "extends" (.list (pyL [.str "C.yaml"])) ownB))
      , ("/d/C.yaml", .dict (.cons "extends" PyVal.none ownC)) ] }

/-- C2 counterexample: in the diamond `fsDiamond`, the key `x` is set by
`C` and overridden by `A`, while `B` and `D` say nothing about it; the
claim's precedence (`A`'s value wins over `C`'s) predicts `x = "A"`, but
the load succeeds with `x = "C"`, because `B`'s result re-supplies `C`'s
value for `x` and overrides `A`'s branch.  (`y` and `own` show that `B`
does beat `A` and `D` beats everyone on their own fields.) -/
theorem C2_diamond_counterexample :
    loadConfigFile fsDiamond "/d/D.yaml" =
      .ok (.dict (pyF [("x", .str "C"), ("z", .str "C"), ("y", .str "B"), ("own", .str "D")]))
    ∧ lookupKey (pyF [("x", .str "C"), ("z", .str "C"), ("y", .str "B"), ("own", .str "D")]) "x"
        = some (.str "C")
    ∧ some (PyVal.str "C") ≠ some (PyVal.str "A") := by
  refine ⟨rfl, rfl, by decide⟩

/-- C2 amended: a diamond loads successfully (reaching `C` twice is
legal), and for every choice of own-field payloads the result is
`merge(merge(merge({}, load A), load B), own D)` where
`load A = merge(merge({}, own C), own A)` and likewise for `B`: `D`'s own
fields override `B`'s loaded result, which overrides `A`'s loaded result;
since `B`'s loaded result re-supplies all of `C`'s keys, a key of `C` not
overridden by `B` or `D` ends with `C`'s value even when `A` overrides
it. -/
theorem C2_diamond_amended (ownD ownA ownB ownC : PyFields) :
    loadConfigFile (fsDiamondP ownD ownA ownB ownC) "/d/D.yaml" =
      .ok (deepMerge
            (deepMerge
              (deepMerge (.dict .nil)
                (deepMerge (deepMerge (.dict .nil) (.dict ownC)) (.dict ownA)))
              (deepMerge (deepMerge (.dict .nil) (.dict ownC)) (.dict ownB)))
            (.dict ownD)) := rfl

/-- Chain with a relative extends entry declared in a parent file that
lives in a different directory than the top-level file: `/top/d.yaml`
extends `sub/p.yaml`, and `/top/sub/p.yaml` extends the relative
`x.yaml`; an `x.yaml` exists both in `/top` (the top-level directory)
and in `/top/sub` (the declaring file's directory). -/
def fsRel : Fs :=
  { cwd := "/w"
    files :=
      [ ("/top/d.yaml", .dict (pyF [("extends", .list (pyL [.str "sub/p.yaml"]))]))
      , ("/top/sub/p.yaml", .dict (pyF [("extends", .list (pyL [.str "x.yaml"]))]))
      , ("/top/x.yaml", .dict (pyF [("v", .str "top")]))
      , ("/top/sub/x.yaml", .dict (pyF [("v", .str "sub")])) ] }

/-- The same chain with arbitrary contents for the two `x.yaml` files. -/
def fsRelP (vTop vSub : PyVal) : Fs :=
  { cwd := "/w"
    files :=
      [ ("/top/d.yaml", .dict (pyF [("extends", .list (pyL [.str "sub/p.yaml"]))]))
      , ("/top/sub/p.yaml", .dict (pyF [("extends", .list (pyL [.str "x.yaml"]))]))
      , ("/top/x.yaml", .dict (.cons "v" vTop .nil))
      , ("/top/sub/x.yaml", .dict (.cons "v" vSub .nil)) ] }

/-- C4 counterexample: on `fsRel` the source loader resolves the relative
`x.yaml` declared in `/top/sub/p.yaml` against the top-level directory
`/top` (giving `v = "top"`), whereas the claim's declaring-directory
semantics (`loadDeclFile`) resolves it against `/top/sub` (giving
`v = "sub"`); the two loaders disagree. -/
theorem C4_resolve_counterexample :
    loadConfigFile fsRel "/top/d.yaml" = .ok (.dict (pyF [("v", .str "top")]))
    ∧ loadDeclFile fsRel "/top/d.yaml" = .ok (.dict (pyF [("v", .str "sub")]))
    ∧ loadConfigFile fsRel "/top/d.yaml" ≠ loadDeclFile fsRel "/top/d.yaml" := by
  refine ⟨rfl, rfl, by decide⟩

/-- C4 amended: a relative extends entry declared in any file of the
chain is resolved against the directory of the originally loaded config
file (the propagated base directory), not the directory of the file
declaring it: whatever the two `x.yaml` files contain, the loaded value
is the one from `/top/x.yaml` and `/top/sub/x.yaml` is never consulted. -/
theorem C4_resolve_amended (vTop vSub : PyVal) :
    loadConfigFile (fsRelP vTop vSub) "/top/d.yaml" =
      .ok (.dict (.cons "v" vTop .nil)) := by
  have h : loadConfigFile (fsRelP vTop vSub) "/top/d.yaml" =
      .ok (deepMerge
            (deepMerge (.dict .nil)
              (deepMerge (deepMerge (.dict .nil) (.dict (.cons "v" vTop .nil)))
                (.dict .nil)))
            (.dict .nil)) := rfl
  rw [h, deepMerge_nil_single, deepMerge_dict_nil, deepMerge_nil_single,
    deepMerge_dict_nil]

/-- Chain for the base-directory propagation demo: `/home/a.yaml` extends
`lib/b.yaml`; `/home/lib/b.yaml` (a parent in another directory) extends
the relative `c.yaml`; a `c.yaml` exists both in `/home` and in
`/home/lib`. -/
def fsProp (vTop vSub : PyVal) : Fs :=
  { cwd := "/w"
    files :=
      [ ("/home/a.yaml", .dict (pyF [("extends", .list (pyL [.str "lib/b.yaml"]))]))
      , ("/home/lib/b.yaml", .dict (pyF [("extends", .list (pyL [.str "c.yaml"]))]))
      , ("/home/c.yaml", .dict (.cons "w" vTop .nil))
      , ("/home/lib/c.yaml", .dict (.cons "w" vSub .nil)) ] }

/-- C5: a top-level call without a base directory behaves exactly as a
call whose base directory is the directory of the given path (first
clause), and that base directory is propagated unchanged to recursive
loads, so the relative `c.yaml` declared by the parent `/home/lib/b.yaml`
is resolved against the originally loaded file's directory `/home` —
whatever the two candidate files contain, the result is always the
content of `/home/c.yaml` (second clause). -/
theorem C5_base_dir_propagation :
    (∀ (fs : Fs) (fuel : Nat) (p : String) (visited : List String),
        loadAux fs fuel p visited Option.none =
        loadAux fs fuel p visited (some (dirname (abspath fs.cwd p))))
    ∧ (∀ vTop vSub : PyVal,
        loadConfigFile (fsProp vTop vSub) "/home/a.yaml" =
          .ok (.dict (.cons "w" vTop .nil))) := by
  constructor
  · intro fs fuel p visited
    cases fuel <;> rfl
  · intro vTop vSub
    have h : loadConfigFile (fsProp vTop vSub) "/home/a.yaml" =
        .ok (deepMerge
              (deepMerge (.dict .nil)
                (deepMerge (deepMerge (.dict .nil) (.dict (.cons "w" vTop .nil)))
                  (.dict .nil)))
              (.dict .nil)) := rfl
    rw [h, deepMerge_nil_single, deepMerge_dict_nil, deepMerge_nil_single,
      deepMerge_dict_nil]

/-- On success, the extends-processing loop returns the visited set it was
given, provided the loader it folds over does so. -/
theorem loadExtendsList_visited
    (loader : String → List String → Except ConfigErr (PyVal × List String))
    (origPath baseDir : String)
    (hl : ∀ p v r, loader p v = .ok r → r.2 = v) :
    ∀ (items : PyList) (merged : PyVal) (visited : List String)
      (r : PyVal × List String),
      loadExtendsList loader origPath baseDir items merged visited = .ok r →
      r.2 = visited := by
  intro items
  induction items using PyList.indOn with
  | hnil =>
      intro merged visited r h
      simp only [loadExtendsList] at h
      cases h
      rfl
  | hcons e rest ih =>
      intro merged visited r h
      cases e with
      | str s =>
          simp only [loadExtendsList] at h
          cases hres : loader (resolveConfigPath s baseDir) visited with
          | error err =>
              simp only [hres] at h
              exact Except.noConfusion h
          | ok pr =>
              obtain ⟨cfg, v'⟩ := pr
              simp only [hres] at h
              have hv : v' = visited := hl _ _ _ hres
              have hr := ih (deepMerge merged cfg) v' r h
              rw [hr, hv]
      | none => simp only [loadExtendsList] at h; exact Except.noConfusion h
      | bool b => simp only [loadExtendsList] at h; exact Except.noConfusion h
      | int n => simp only [loadExtendsList] at h; exact Except.noConfusion h
      | list xs => simp only [loadExtendsList] at h; exact Except.noConfusion h
      | dict d => simp only [loadExtendsList] at h; exact Except.noConfusion h
      | ref a => simp only [loadExtendsList] at h; exact Except.noConfusion h

/-- On success, `_load_config_file` returns the visited set it was given:
the absolute path added on entry is removed again on every non-error
exit. -/
theorem loadAux_visited (fs : Fs) :
    ∀ (fuel : Nat) (p : String) (visited : List String) (bopt : Option String)
      (r : PyVal × List String),
      loadAux fs fuel p visited bopt = .ok r → r.2 = visited := by
  intro fuel
  induction fuel with
  | zero =>
      intro p visited bopt r h
      simp only [loadAux] at h
      exact Except.noConfusion h
  | succ fuel ih =>
      intro p visited bopt r h
      simp only [loadAux] at h
      split at h
      · exact absurd h (by simp)
      · split at h
        · exact absurd h (by simp)
        · split at h
          · split at h
            · cases h
              exact List.erase_cons_head _ _
            · cases h
              exact List.erase_cons_head _ _
            · split at h
              · exact absurd h (by simp)
              · rename_i merged visited2 hfold
                cases h
                have h2 : visited2 = abspath fs.cwd p :: visited := by
                  refine loadExtendsList_visited _ _ _ ?_ _ _ _ _ hfold
                  intro p' v' r' h'
                  exact ih p' v' _ r' h'
                simp only [h2]
                exact List.erase_cons_head _ _
            · exact absurd h (by simp)
          · exact absurd h (by simp)

/-- C6: the visited set is restored on every non-error exit — any
successful call of the loader returns exactly the visited set it was
given — and the diamond `fsDiamond`, in which `C` is reached twice, loads
successfully. -/
theorem C6_visited_invariant :
    (∀ (fs : Fs) (fuel : Nat) (p : String) (visited : List String)
        (bopt : Option String) (v : PyVal) (vis' : List String),
        loadAux fs fuel p visited bopt = .ok (v, vis') → vis' = visited)
    ∧ (∃ v, loadConfigFile fsDiamond "/d/D.yaml" = .ok v) := by
  constructor
  · intro fs fuel p visited bopt v vis' h
    exact loadAux_visited fs fuel p visited bopt (v, vis') h
  · exact ⟨_, rfl⟩

/-- C6 witness: the invariant applied to a concrete successful run of the
diamond load started with the nonempty visited set `["/q"]`. -/
theorem C6_visited_invariant_witness :
    loadAux fsDiamond 5 "/d/D.yaml" ["/q"] Option.none =
      .ok (.dict (pyF [("x", .str "C"), ("z", .str "C"), ("y", .str "B"), ("own", .str "D")]),
           ["/q"])
    ∧ (["/q"] : List String) = ["/q"] :=
  ⟨rfl, C6_visited_invariant.1 fsDiamond 5 "/d/D.yaml" ["/q"] Option.none
    (.dict (pyF [("x", .str "C"), ("z", .str "C"), ("y", .str "B"), ("own", .str "D")]))
    ["/q"] rfl⟩

/-! # Circular dependency detection (claim C3) -/

/-- The resolved path of the first extends entry of the file at absolute
path `q`: defined when the file exists, is (after `or {}`) a dict, and
its extends field is a list headed by a string. -/
def firstEntryPath (fs : Fs) (b : String) (q : String) : Option String :=
  match lookupFile fs.files q with
  | Option.none => Option.none
  | some raw =>
      match orEmptyDict raw with
      | .dict entries =>
          match popKey entries "extends" with
          | (some (.list (.cons (.str s) _)), _) => some (resolveConfigPath s b)
          | _ => Option.none
      | _ => Option.none

/-- A chain of first-extends links: loading `p` visits the absolute paths
`qs` in order, each file's first extends entry leading to the next, and
the last file's first extends entry resolves to absolute path `t`. -/
def ChainLinks (fs : Fs) (b : String) : String → List String → String → Prop
  | p, [], t => abspath fs.cwd p = t
  | p, q :: rest, t =>
      abspath fs.cwd p = q ∧
      ∃ p', firstEntryPath fs b q = some p' ∧ ChainLinks fs b p' rest t

/-- Every absolute path on a chain of first-extends links is an existing
file. -/
theorem chainLinks_exists (fs : Fs) (b : String) :
    ∀ (qs : List String) (p : String) (t : String),
      ChainLinks fs b p qs t →
      ∀ q ∈ qs, ∃ w, lookupFile fs.files q = some w := by
  intro qs
  induction qs with
  | nil => intro p t _ q hq; simp at hq
  | cons q0 rest ih =>
      intro p t hchain q hq
      obtain ⟨habs, p', hfirst, hrest⟩ := hchain
      rcases List.mem_cons.mp hq with hq | hq
      · subst hq
        unfold firstEntryPath at hfirst
        split at hfirst
        · exact Option.noConfusion hfirst
        · rename_i w hw
          exact ⟨w, hw⟩
      · exact ih p' t hrest q hq

/-- Paths found by `lookupFile` are keys of the filesystem. -/
theorem lookupFile_mem_keys :
    ∀ (files : List (String × PyVal)) (q : String) (w : PyVal),
      lookupFile files q = some w → q ∈ files.map Prod.fst := by
  intro files
  induction files with
  | nil => intro q w h; exact Option.noConfusion h
  | cons pv rest ih =>
      intro q w h
      obtain ⟨p, v⟩ := pv
      by_cases hpq : p = q
      · simp [hpq]
      · simp only [lookupFile, if_neg hpq] at h
        simp [ih q w h]

/-- Following a chain of first-extends links whose final target `t` is
already visited or on the chain itself makes the loader fail with the
circular-dependency error naming `t`. -/
theorem chain_circular (fs : Fs) (b : String) :
    ∀ (qs : List String) (fuel : Nat) (p : String) (visited : List String)
      (t : String),
      ChainLinks fs b p qs t →
      (∀ q ∈ qs, q ∉ visited) → qs.Nodup →
      (t ∈ visited ∨ t ∈ qs) →
      qs.length < fuel →
      loadAux fs fuel p visited (some b) = .error (.circular t) := by
  intro qs
  induction qs with
  | nil =>
      intro fuel p visited t hchain hnv hnd hmem hlen
      obtain _ | fuel := fuel
      · exact absurd hlen (by simp)
      · simp only [ChainLinks] at hchain
        rcases hmem with hmem | hmem
        · simp only [loadAux]
          rw [hchain, if_pos hmem]
        · simp at hmem
  | cons q rest ih =>
      intro fuel p visited t hchain hnv hnd hmem hlen
      obtain _ | fuel := fuel
      · exact absurd hlen (by omega)
      · obtain ⟨habs, p', hfirst, hrest⟩ := hchain
        have hqnv : q ∉ visited := hnv q (List.mem_cons_self q rest)
        have hndrest : rest.Nodup := (List.nodup_cons.mp hnd).2
        have hqrest : q ∉ rest := (List.nodup_cons.mp hnd).1
        unfold firstEntryPath at hfirst
        split at hfirst
        · exact Option.noConfusion hfirst
        · rename_i raw hlook
          split at hfirst
          · rename_i entries horE
            split at hfirst
            · rename_i s more rest2 hpop
              have hp' : p' = resolveConfigPath s b := by
                exact (Option.some.injEq _ _ ▸ hfirst).symm
              have hinner :
                  loadAux fs fuel (resolveConfigPath s b) (q :: visited) (some b) =
                    .error (.circular t) := by
                apply ih fuel (resolveConfigPath s b) (q :: visited) t
                · rw [← hp']; exact hrest
                · intro x hx
                  intro hmemx
                  rcases List.mem_cons.mp hmemx with hxq | hxv
                  · exact hqrest (hxq ▸ hx)
                  · exact hnv x (List.mem_cons_of_mem q hx) hxv
                · exact hndrest
                · rcases hmem with hmem | hmem
                  · exact Or.inl (List.mem_cons_of_mem q hmem)
                  · rcases List.mem_cons.mp hmem with htq | htr
                    · exact Or.inl (htq ▸ List.mem_cons_self q visited)
                    · exact Or.inr htr
                · simpa using Nat.lt_of_succ_lt_succ hlen
              simp only [loadAux, Option.getD_some]
              rw [habs, if_neg hqnv, hlook]
              simp only [horE, hpop, loadExtendsList, hinner]
            · exact Option.noConfusion hfirst
          · exact Option.noConfusion hfirst

/-- A call without a base directory behaves as a call whose base
directory is the directory of the given path (shared helper). -/
theorem loadAux_default_baseDir (fs : Fs) (fuel : Nat) (p : String)
    (visited : List String) :
    loadAux fs fuel p visited Option.none =
    loadAux fs fuel p visited (some (dirname (abspath fs.cwd p))) := by
  cases fuel <;> rfl

/-- C3: the circular check precedes the existence check — whenever the
absolute path of the requested file is already in the visited set the
loader fails with the circular-dependency error naming that absolute
path, with no existence requirement on the filesystem at all (first
clause); and every file whose chain of first extends entries leads back
to its own absolute path fails, from the public entry point, with the
circular-dependency error naming that absolute path (second clause). -/
theorem C3_circular_detection :
    (∀ (fs : Fs) (fuel : Nat) (p : String) (visited : List String)
        (bopt : Option String),
        0 < fuel → abspath fs.cwd p ∈ visited →
        loadAux fs fuel p visited bopt = .error (.circular (abspath fs.cwd p)))
    ∧ (∀ (fs : Fs) (p : String) (qs : List String),
        ChainLinks fs (dirname (abspath fs.cwd p)) p (abspath fs.cwd p :: qs)
          (abspath fs.cwd p) →
        (abspath fs.cwd p :: qs).Nodup →
        loadConfigFile fs p = .error (.circular (abspath fs.cwd p))) := by
  constructor
  · intro fs fuel p visited bopt hfuel hmem
    obtain _ | fuel := fuel
    · exact absurd hfuel (by simp)
    · simp only [loadAux]
      rw [if_pos hmem]
  · intro fs p qs hchain hnd
    have hsub : (abspath fs.cwd p :: qs) ⊆ fs.files.map Prod.fst := by
      intro x hx
      obtain ⟨w, hw⟩ := chainLinks_exists fs _ (abspath fs.cwd p :: qs) p
        (abspath fs.cwd p) hchain x hx
      exact lookupFile_mem_keys fs.files x w hw
    have hlen : (abspath fs.cwd p :: qs).length ≤ fs.files.length := by
      have h := (List.subperm_of_subset hnd hsub).length_le
      simpa using h
    have h := chain_circular fs (dirname (abspath fs.cwd p))
        (abspath fs.cwd p :: qs) (fs.files.length + 1) p [] (abspath fs.cwd p)
        hchain (by intro q _ hq; simp at hq) hnd
        (Or.inr (List.mem_cons_self _ _))
        (by omega)
    unfold loadConfigFile
    rw [loadAux_default_baseDir, h]

/-- Filesystem with a two-file extends cycle: `a.yaml` extends `b.yaml`
and `b.yaml` extends `a.yaml`. -/
def fsCycle : Fs :=
  { cwd := "/w"
    files :=
      [ ("/c/a.yaml", .dict (pyF [("extends", .list (pyL [.str "b.yaml"])), ("v", .int 1)]))
      , ("/c/b.yaml", .dict (pyF [("extends", .list (pyL [.str "a.yaml"])), ("v", .int 2)])) ] }

/-- C3 witness: the visited check fires with the circular error even for
a path that does not exist on disk (first clause applied concretely), and
the two-file cycle fails from the public entry point with the circular
error naming the started file's absolute path (second clause applied
concretely). -/
theorem C3_circular_detection_witness :
    loadAux fsCycle 1 "/c/missing.yaml" ["/c/missing.yaml"] Option.none =
      .error (.circular "/c/missing.yaml")
    ∧ loadConfigFile fsCycle "/c/a.yaml" = .error (.circular "/c/a.yaml") := by
  constructor
  · exact C3_circular_detection.1 fsCycle 1 "/c/missing.yaml" ["/c/missing.yaml"]
      Option.none (by decide) (by decide)
  · exact C3_circular_detection.2 fsCycle "/c/a.yaml" ["/c/b.yaml"]
      ⟨rfl, "/c/b.yaml", rfl, rfl, "/c/a.yaml", rfl, rfl⟩ (by decide)

/-! # The accessor (`DictToObj` in core.py)

`DictToObj` instances live on an explicit heap so that object identity
(`id(self)`) and post-construction mutation (which can create reference
cycles) are expressible.  The heap is a list of instance `__dict__`s;
addresses are allocation indices and `PyVal.ref a` is a reference to the
instance at address `a`.  Construction allocates the children of a node
before the node itself; only the distinctness of addresses matters. -/

/-- The heap of `DictToObj` instances. -/
abbrev Heap := List PyFields

/-- The `__dict__` of the instance at address `a`. -/
def heapFields (h : Heap) (a : Nat) : PyFields := h.getD a .nil

mutual
/-- One field value as stored by `DictToObj.__init__`: a dict value is
wrapped into a freshly allocated accessor instance; a list value has its
dict elements wrapped (all other elements, including nested lists, pass
through untouched); anything else is stored as-is. -/
def convertValue : PyVal → Heap → PyVal × Heap
  | .dict d, h =>
      let fh := buildFields d h
      (.ref fh.2.length, fh.2 ++ [fh.1])
  | .list xs, h =>
      let yh := convertItems xs h
      (.list yh.1, yh.2)
  | v, h => (v, h)

/-- The list comprehension of `DictToObj.__init__`: only elements that
are themselves dicts are wrapped. -/
def convertItems : PyList → Heap → PyList × Heap
  | .nil, h => (.nil, h)
  | .cons x rest, h =>
      match x with
      | .dict d =>
          let fh := buildFields d h
          let yh := convertItems rest (fh.2 ++ [fh.1])
          (.cons (.ref fh.2.length) yh.1, yh.2)
      | other =>
          let yh := convertItems rest h
          (.cons other yh.1, yh.2)

/-- The `for key, value in dictionary.items()` loop of
`DictToObj.__init__` (keys of a Python dict are unique, so the fields are
built entrywise). -/
def buildFields : PyFields → Heap → PyFields × Heap
  | .nil, h => (.nil, h)
  | .cons k v rest, h =>
      let vh := convertValue v h
      let fh := buildFields rest vh.2
      (.cons k vh.1 fh.1, fh.2)
end

/-- Python `DictToObj(dictionary)` on a dict: build the converted fields, then
allocate the instance; returns its address and the new heap. -/
def constructObj (d : PyFields) (h : Heap) : Nat × Heap :=
  let fh := buildFields d h
  (fh.2.length, fh.2 ++ [fh.1])

/-- Python `DictToObj(x)` including the top-level type check of `__init__`: a
non-dict raises `TypeError`. -/
def dictToObj : PyVal → Heap → Except String (Nat × Heap)
  | .dict d, h => .ok (constructObj d h)
  | v, _ => .error ("Expected dict, got " ++ typeName v)

/-- Post-construction `setattr` (`obj.k = v` and `obj[k] = v`): stores
the value as-is — `__setattr__` is not overridden in the source, so no
wrapping happens on writes. -/
def setAttr (h : Heap) (a : Nat) (k : String) (v : PyVal) : Heap :=
  h.set a (setKey (heapFields h a) k v)

/-- List items in `_to_dict`: only `DictToObj` elements are flattened by
`conv`; every other element is returned as-is. -/
def convItems (conv : Nat → PyVal) : PyList → PyList
  | .nil => .nil
  | .cons (.ref a) rest => .cons (conv a) (convItems conv rest)
  | .cons x rest => .cons x (convItems conv rest)

/-- Field values in `_to_dict`: a `DictToObj` value is flattened by
`conv`, a list value flattens its `DictToObj` elements, everything else
is returned as-is. -/
def convValue (conv : Nat → PyVal) : PyVal → PyVal
  | .ref a => conv a
  | .list xs => .list (convItems conv xs)
  | v => v

/-- The `for key, value in self.__dict__.items()` loop of `_to_dict`. -/
def convFields (conv : Nat → PyVal) : PyFields → PyFields
  | .nil => .nil
  | .cons k v rest => .cons k (convValue conv v) (convFields conv rest)

/-- Python `DictToObj._to_dict(_seen, _max_depth, _current_depth)`.  The source
pair `(_max_depth = 100, _current_depth)` is replaced by the single
budget `_max_depth + 1 - _current_depth`, so the source's entry guard
`_current_depth > _max_depth` is exactly `budget = 0` and each recursive
call (`_current_depth + 1`) decrements the budget.  The identity of the
node is checked against the seen set of the active path, the node is
added for its children (the source passes `_seen.copy()` down, so
siblings do not pollute each other, which the functional reading gives
for free), and children are flattened one level deeper. -/
def toDictAux (h : Heap) : Nat → Nat → List Nat → PyVal
  | 0, _, _ => .str "<Max depth exceeded>"
  | budget + 1, a, seen =>
      if a ∈ seen then .str "<Circular reference>"
      else .dict (convFields (fun a' => toDictAux h budget a' (a :: seen))
                    (heapFields h a))

/-- Python `DictToObj._to_dict()` with its default arguments: max depth 100,
current depth 0 (budget 101), empty seen set. -/
def toDict (h : Heap) (a : Nat) : PyVal := toDictAux h 101 a []

mutual
/-- Whether the string `m` occurs as a scalar anywhere in a value. -/
def containsMarker : PyVal → String → Bool
  | .str s, m => s == m
  | .list xs, m => containsMarkerList xs m
  | .dict d, m => containsMarkerFields d m
  | _, _ => false

def containsMarkerList : PyList → String → Bool
  | .nil, _ => false
  | .cons x rest, m => containsMarker x m || containsMarkerList rest m

def containsMarkerFields : PyFields → String → Bool
  | .nil, _ => false
  | .cons _ v rest, m => containsMarker v m || containsMarkerFields rest m
end

/-- The attribute names defined in the body of the `DictToObj` class
(its methods).  `hasattr` finds these even when they were never set as
fields.  They are only part of the class's attribute set: `hasattr` also
finds the interpreter's implicit class-dict entries and the attributes
inherited from `object`, which `hasattrObj` carries separately. -/
def classAttrs : List String :=
  ["__init__", "__getitem__", "__setitem__", "__getattr__", "get",
   "__contains__", "__repr__", "__str__", "_to_dict"]

/-- A representative value for the attribute names `hasattr` finds on
`DictToObj` beyond the class body in CPython: the implicit class-dict
entries and the attributes inherited from `object` (minus the ones the
class overrides).  The exact set varies with the interpreter version,
which is why the `hasattr` model takes it as a parameter rather than
fixing this list. -/
def inheritedAttrsDemo : List String :=
  ["__module__", "__qualname__", "__doc__", "__dict__", "__weakref__",
   "__class__", "__delattr__", "__dir__", "__eq__", "__format__", "__ge__",
   "__getattribute__", "__gt__", "__hash__", "__init_subclass__", "__le__",
   "__lt__", "__ne__", "__new__", "__reduce__", "__reduce_ex__",
   "__setattr__", "__sizeof__", "__subclasshook__"]

/-- Python `hasattr(self, key)` for a `DictToObj` instance whose
`__dict__` is `flds`: an instance attribute, or an attribute of the
class.  The class's attribute set is the nine names defined in its body
(`classAttrs`) together with the interpreter's implicit class-dict
entries (`__module__`, `__doc__`, ...) and everything inherited from
`object` (`__class__`, `__eq__`, ...); those two interpreter-dependent
groups are the parameter `inherited` (see `inheritedAttrsDemo` for a
representative value).  `__getattr__` raises `AttributeError` for any
other name, which makes `hasattr` false. -/
def hasattrObj (inherited : List String) (flds : PyFields) (k : String) : Bool :=
  (lookupKey flds k).isSome || (classAttrs ++ inherited).contains k

/-- Python `DictToObj.__contains__(key)`: `return hasattr(self, key)`. -/
def objContains (inherited : List String) (flds : PyFields) (k : String) : Bool :=
  hasattrObj inherited flds k

/-! # Heap extension -/

/-- Heap extension: `g` extends `h` by appended allocations. -/
def HeapLE (h g : Heap) : Prop := ∃ t, g = h ++ t

theorem heapLE_refl (h : Heap) : HeapLE h h := ⟨[], by simp⟩

theorem heapLE_trans {h g j : Heap} (h1 : HeapLE h g) (h2 : HeapLE g j) :
    HeapLE h j := by
  obtain ⟨t1, rfl⟩ := h1
  obtain ⟨t2, rfl⟩ := h2
  exact ⟨t1 ++ t2, by simp⟩

theorem heapLE_snoc (h : Heap) (f : PyFields) : HeapLE h (h ++ [f]) := ⟨[f], rfl⟩

theorem heapLE_length {h g : Heap} (hle : HeapLE h g) : h.length ≤ g.length := by
  obtain ⟨t, rfl⟩ := hle
  simp

theorem heapFields_stable {h g : Heap} {a : Nat} (hle : HeapLE h g)
    (ha : a < h.length) : heapFields g a = heapFields h a := by
  obtain ⟨t, rfl⟩ := hle
  exact List.getD_append h t _ a ha

theorem heapFields_snoc (h : Heap) (f : PyFields) :
    heapFields (h ++ [f]) h.length = f := by
  unfold heapFields
  rw [List.getD_append_right h [f] _ _ (le_refl _)]
  simp [List.getD]

mutual
theorem convertValue_ext : ∀ (v : PyVal) (h : Heap), HeapLE h (convertValue v h).2
  | .dict d, h => by
      simp only [convertValue]
      exact heapLE_trans (buildFields_ext d h) (heapLE_snoc _ _)
  | .list xs, h => by
      simpa only [convertValue] using convertItems_ext xs h
  | .none, h => heapLE_refl h
  | .bool b, h => heapLE_refl h
  | .int n, h => heapLE_refl h
  | .str s, h => heapLE_refl h
  | .ref a, h => heapLE_refl h

theorem convertItems_ext : ∀ (xs : PyList) (h : Heap), HeapLE h (convertItems xs h).2
  | .nil, h => heapLE_refl h
  | .cons (.dict d) rest, h => by
      simp only [convertItems]
      exact heapLE_trans (heapLE_trans (buildFields_ext d h) (heapLE_snoc _ _))
        (convertItems_ext rest _)
  | .cons .none rest, h => by
      simpa only [convertItems] using convertItems_ext rest h
  | .cons (.bool b) rest, h => by
      simpa only [convertItems] using convertItems_ext rest h
  | .cons (.int n) rest, h => by
      simpa only [convertItems] using convertItems_ext rest h
  | .cons (.str s) rest, h => by
      simpa only [convertItems] using convertItems_ext rest h
  | .cons (.list ys) rest, h => by
      simpa only [convertItems] using convertItems_ext rest h
  | .cons (.ref a) rest, h => by
      simpa only [convertItems] using convertItems_ext rest h

theorem buildFields_ext : ∀ (d : PyFields) (h : Heap), HeapLE h (buildFields d h).2
  | .nil, h => heapLE_refl h
  | .cons k v rest, h => by
      simp only [buildFields]
      exact heapLE_trans (convertValue_ext v h) (buildFields_ext rest _)
end

/-! # The conversion contract of construction (claim C7)

`accFields`/`accValue`/`accItem` are modelled from the amended claim's
words, not from the code: an accessor wraps a plain mapping when its
fields carry the same keys in order and each stored value relates to the
plain value as the amended claim states — a plain mapping value is a
reference to an allocated accessor recursively wrapping it, a plain
sequence value is a sequence whose plain-mapping elements are references
to allocated accessors recursively wrapping them while every other
element (scalars, and sequences nested within sequences, whose inner
mappings are then left as plain mappings) is unchanged, and every other
plain value is unchanged. -/

mutual
def accFields (h : Heap) : PyFields → PyFields → Bool
  | .nil, .nil => true
  | .cons k' w rest', .cons k v rest =>
      k' == k && accValue h w v && accFields h rest' rest
  | _, _ => false

def accValue (h : Heap) (w : PyVal) : PyVal → Bool
  | .dict d =>
      match w with
      | .ref a => decide (a < h.length) && accFields h (heapFields h a) d
      | _ => false
  | .list xs =>
      match w with
      | .list ys => accItems h ys xs
      | _ => false
  | v => PyVal.beq w v

def accItems (h : Heap) : PyList → PyList → Bool
  | .nil, .nil => true
  | .cons y ys, .cons x xs => accItem h y x && accItems h ys xs
  | _, _ => false

def accItem (h : Heap) (y : PyVal) : PyVal → Bool
  | .dict d =>
      match y with
      | .ref a => decide (a < h.length) && accFields h (heapFields h a) d
      | _ => false
  | x => PyVal.beq y x
end

mutual
theorem accFields_mono : ∀ (d : PyFields) (f : PyFields) (h g : Heap),
    HeapLE h g → accFields h f d = true → accFields g f d = true
  | .nil, f, h, g, hle, hacc => by
      cases f with
      | nil => simp only [accFields]
      | cons k' w rest' => simp [accFields] at hacc
  | .cons k v rest, f, h, g, hle, hacc => by
      cases f with
      | nil => simp [accFields] at hacc
      | cons k' w rest' =>
          simp only [accFields, Bool.and_eq_true] at hacc ⊢
          obtain ⟨⟨hk, hv⟩, hr⟩ := hacc
          exact ⟨⟨hk, accValue_mono v w h g hle hv⟩,
            accFields_mono rest rest' h g hle hr⟩

theorem accValue_mono : ∀ (v : PyVal) (w : PyVal) (h g : Heap),
    HeapLE h g → accValue h w v = true → accValue g w v = true
  | .dict d, w, h, g, hle, hacc => by
      cases w with
      | ref a =>
          simp only [accValue, Bool.and_eq_true, decide_eq_true_eq] at hacc ⊢
          obtain ⟨ha, hf⟩ := hacc
          refine ⟨lt_of_lt_of_le ha (heapLE_length hle), ?_⟩
          rw [heapFields_stable hle ha]
          exact accFields_mono d (heapFields h a) h g hle hf
      | none => simp [accValue] at hacc
      | bool b => simp [accValue] at hacc
      | int n => simp [accValue] at hacc
      | str s => simp [accValue] at hacc
      | list ys => simp [accValue] at hacc
      | dict d' => simp [accValue] at hacc
  | .list xs, w, h, g, hle, hacc => by
      cases w with
      | list ys =>
          simp only [accValue] at hacc ⊢
          exact accItems_mono xs ys h g hle hacc
      | none => simp [accValue] at hacc
      | bool b => simp [accValue] at hacc
      | int n => simp [accValue] at hacc
      | str s => simp [accValue] at hacc
      | dict d' => simp [accValue] at hacc
      | ref a => simp [accValue] at hacc
  | .none, w, h, g, hle, hacc => by simpa only [accValue] using hacc
  | .bool b, w, h, g, hle, hacc => by simpa only [accValue] using hacc
  | .int n, w, h, g, hle, hacc => by simpa only [accValue] using hacc
  | .str s, w, h, g, hle, hacc => by simpa only [accValue] using hacc
  | .ref a, w, h, g, hle, hacc => by simpa only [accValue] using hacc

theorem accItems_mono : ∀ (xs : PyList) (ys : PyList) (h g : Heap),
    HeapLE h g → accItems h ys xs = true → accItems g ys xs = true
  | .nil, ys, h, g, hle, hacc => by
      cases ys with
      | nil => simp only [accItems]
      | cons y ys' => simp [accItems] at hacc
  | .cons x xs, ys, h, g, hle, hacc => by
      cases ys with
      | nil => simp [accItems] at hacc
      | cons y ys' =>
          simp only [accItems, Bool.and_eq_true] at hacc ⊢
          exact ⟨accItem_mono x y h g hle hacc.1,
            accItems_mono xs ys' h g hle hacc.2⟩

theorem accItem_mono : ∀ (x : PyVal) (y : PyVal) (h g : Heap),
    HeapLE h g → accItem h y x = true → accItem g y x = true
  | .dict d, y, h, g, hle, hacc => by
      cases y with
      | ref a =>
          simp only [accItem, Bool.and_eq_true, decide_eq_true_eq] at hacc ⊢
          obtain ⟨ha, hf⟩ := hacc
          refine ⟨lt_of_lt_of_le ha (heapLE_length hle), ?_⟩
          rw [heapFields_stable hle ha]
          exact accFields_mono d (heapFields h a) h g hle hf
      | none => simp [accItem] at hacc
      | bool b => simp [accItem] at hacc
      | int n => simp [accItem] at hacc
      | str s => simp [accItem] at hacc
      | list ys => simp [accItem] at hacc
      | dict d' => simp [accItem] at hacc
  | .none, y, h, g, hle, hacc => by simpa only [accItem] using hacc
  | .bool b, y, h, g, hle, hacc => by simpa only [accItem] using hacc
  | .int n, y, h, g, hle, hacc => by simpa only [accItem] using hacc
  | .str s, y, h, g, hle, hacc => by simpa only [accItem] using hacc
  | .list xs, y, h, g, hle, hacc => by simpa only [accItem] using hacc
  | .ref a, y, h, g, hle, hacc => by simpa only [accItem] using hacc
end

mutual
theorem buildFields_acc : ∀ (d : PyFields) (h : Heap),
    accFields (buildFields d h).2 (buildFields d h).1 d = true
  | .nil, h => by simp [buildFields, accFields]
  | .cons k v rest, h => by
      simp only [buildFields, accFields, Bool.and_eq_true]
      refine ⟨⟨by simp, ?_⟩, ?_⟩
      · exact accValue_mono v _ _ _ (buildFields_ext rest (convertValue v h).2)
          (convertValue_acc v h)
      · exact buildFields_acc rest (convertValue v h).2

theorem convertValue_acc : ∀ (v : PyVal) (h : Heap),
    accValue (convertValue v h).2 (convertValue v h).1 v = true
  | .dict d, h => by
      simp only [convertValue, accValue]
      rw [heapFields_snoc]
      simp only [Bool.and_eq_true, decide_eq_true_eq]
      refine ⟨by simp, ?_⟩
      exact accFields_mono d _ _ _ (heapLE_snoc _ _) (buildFields_acc d h)
  | .list xs, h => by
      simp only [convertValue, accValue]
      exact convertItems_acc xs h
  | .none, h => by simp [convertValue, accValue, PyVal.beq]
  | .bool b, h => by simp [convertValue, accValue, PyVal.beq]
  | .int n, h => by simp [convertValue, accValue, PyVal.beq]
  | .str s, h => by simp [convertValue, accValue, PyVal.beq]
  | .ref a, h => by simp [convertValue, accValue, PyVal.beq]

theorem convertItems_acc : ∀ (xs : PyList) (h : Heap),
    accItems (convertItems xs h).2 (convertItems xs h).1 xs = true
  | .nil, h => by simp [convertItems, accItems]
  | .cons (.dict d) rest, h => by
      simp only [convertItems, accItems, accItem, Bool.and_eq_true,
        decide_eq_true_eq]
      refine ⟨⟨?_, ?_⟩, ?_⟩
      · have h1 : ((buildFields d h).2 ++ [(buildFields d h).1]).length ≤
            (convertItems rest ((buildFields d h).2 ++ [(buildFields d h).1])).2.length :=
          heapLE_length (convertItems_ext rest _)
        simp at h1
        omega
      · have hst : heapFields
            (convertItems rest ((buildFields d h).2 ++ [(buildFields d h).1])).2
            (buildFields d h).2.length = (buildFields d h).1 := by
          rw [heapFields_stable (convertItems_ext rest _) (by simp),
            heapFields_snoc]
        rw [hst]
        exact accFields_mono d _ _ _
          (heapLE_trans (heapLE_snoc _ _) (convertItems_ext rest _))
          (buildFields_acc d h)
      · exact convertItems_acc rest _
  | .cons .none rest, h => by
      simp only [convertItems, accItems, accItem, Bool.and_eq_true]
      exact ⟨by simp [PyVal.beq], convertItems_acc rest h⟩
  | .cons (.bool b) rest, h => by
      simp only [convertItems, accItems, accItem, Bool.and_eq_true]
      exact ⟨by simp [PyVal.beq], convertItems_acc rest h⟩
  | .cons (.int n) rest, h => by
      simp only [convertItems, accItems, accItem, Bool.and_eq_true]
      exact ⟨by simp [PyVal.beq], convertItems_acc rest h⟩
  | .cons (.str s) rest, h => by
      simp only [convertItems, accItems, accItem, Bool.and_eq_true]
      exact ⟨by simp [PyVal.beq], convertItems_acc rest h⟩
  | .cons (.list ys) rest, h => by
      simp only [convertItems, accItems, accItem, Bool.and_eq_true]
      exact ⟨(pyVal_beq_iff _ _).mpr rfl, convertItems_acc rest h⟩
  | .cons (.ref a) rest, h => by
      simp only [convertItems, accItems, accItem, Bool.and_eq_true]
      exact ⟨by simp [PyVal.beq], convertItems_acc rest h⟩
end

/-- C7 counterexample: constructing an accessor from
`{"a": [[{"b": 1}]]}` allocates exactly one instance whose field `a`
still contains the inner mapping as a plain dict — a mapping that occurs
inside a sequence nested within another sequence is not converted (the
stored fields equal the raw input verbatim). -/
theorem C7_convert_counterexample :
    constructObj (pyF [("a", .list (pyL [.list (pyL [.dict (pyF [("b", .int 1)])])]))]) []
      = (0, [pyF [("a", .list (pyL [.list (pyL [.dict (pyF [("b", .int 1)])])]))]]) := rfl

/-- C7 amended: construction recursively converts every mapping that is a
field value or a direct element of a sequence-valued field into a
referenced accessor instance, scalars pass through unchanged, and
elements of sequences nested within other sequences pass through as-is
(inner mappings there stay plain mappings) — stated by the claim-side
relation `accValue` and proved for every input mapping and starting
heap. -/
theorem C7_convert_amended (d : PyFields) (h : Heap) :
    accValue (constructObj d h).2 (.ref (constructObj d h).1) (.dict d) = true :=
  convertValue_acc (.dict d) h

/-- Instance-dict lookup succeeds exactly on the stored keys. -/
theorem lookupKey_isSome_iff (flds : PyFields) (k : String) :
    (lookupKey flds k).isSome = true ↔ k ∈ keysList flds := by
  induction flds using PyFields.indOn with
  | hnil => simp [lookupKey, keysList]
  | hcons k' v' rest ih =>
      by_cases h : k' = k
      · simp [lookupKey, keysList, h]
      · simp [lookupKey, keysList, h, ih, Ne.symm h]

/-- C8 counterexample: on the accessor built from `{"a": 1}` (whose
instance dict is exactly `{"a": 1}`), the containment test is true for
the never-set strings `"get"` (a method defined in the class body) and
`"__class__"` (an attribute inherited from `object`) — `__contains__`
is `hasattr`, which finds both. -/
theorem C8_contains_counterexample :
    objContains inheritedAttrsDemo (pyF [("a", .int 1)]) "get" = true
    ∧ objContains inheritedAttrsDemo (pyF [("a", .int 1)]) "__class__" = true
    ∧ lookupKey (pyF [("a", .int 1)]) "get" = Option.none
    ∧ lookupKey (pyF [("a", .int 1)]) "__class__" = Option.none
    ∧ heapFields (constructObj (pyF [("a", .int 1)]) []).2
        (constructObj (pyF [("a", .int 1)]) []).1 = pyF [("a", .int 1)] :=
  ⟨rfl, rfl, rfl, rfl, rfl⟩

/-- C8 amended: whatever the interpreter-provided attribute set
`inherited` is, `k in x` is true exactly when `k` is a set field of the
instance, or a method defined in the body of the `DictToObj` class (such
as `get`, `_to_dict`, or a dunder), or one of the interpreter's implicit
class-dict entries and `object`-inherited attributes; it is false for
every string that is none of these.  In particular every field set at
construction or by a later write is contained. -/
theorem C8_contains :
    (∀ (inherited : List String) (flds : PyFields) (k : String),
        objContains inherited flds k = true ↔
          (k ∈ keysList flds ∨ k ∈ classAttrs ∨ k ∈ inherited))
    ∧ (∀ (inherited : List String) (flds : PyFields) (k : String) (v : PyVal),
        objContains inherited (setKey flds k v) k = true)
    ∧ (∀ (inherited : List String) (flds : PyFields) (k : String),
        k ∈ keysList flds → objContains inherited flds k = true) := by
  refine ⟨?_, ?_, ?_⟩
  · intro inherited flds k
    simp [objContains, hasattrObj, lookupKey_isSome_iff, List.elem_iff,
      List.mem_append]
  · intro inherited flds k v
    simp [objContains, hasattrObj, lookupKey_setKey_self]
  · intro inherited flds k h
    simp [objContains, hasattrObj, (lookupKey_isSome_iff flds k).mpr h]

/-- C8 witness: the general clauses applied at concrete fields, with the
representative CPython attribute set. -/
theorem C8_contains_witness :
    objContains inheritedAttrsDemo (pyF [("a", .int 1)]) "a" = true
    ∧ objContains inheritedAttrsDemo (setKey .nil "z" (.int 0)) "z" = true :=
  ⟨C8_contains.2.2 inheritedAttrsDemo (pyF [("a", .int 1)]) "a" (by decide),
   C8_contains.2.1 inheritedAttrsDemo .nil "z" (.int 0)⟩

/-- The heap of the spec's cycle scenario: two accessors built from
`{"name": "obj1"}` and `{"name": "obj2"}`, mutated afterwards by
`a.ref = b; b.ref = a`. -/
def cyclicHeap : Heap :=
  let r1 := constructObj (pyF [("name", .str "obj1")]) []
  let r2 := constructObj (pyF [("name", .str "obj2")]) r1.2
  setAttr (setAttr r2.2 r1.1 "ref" (.ref r2.1)) r2.1 "ref" (.ref r1.1)

/-- C9: `_to_dict` is total (it is a function of this development, defined
by recursion on the depth budget), a node whose identity is on the active
flattening path is replaced by the sentinel `"<Circular reference>"`
(checked before anything is read from the heap, for every heap), recursion
past the depth ceiling of 100 — budget zero — is replaced by the sentinel
`"<Max depth exceeded>"` (for every heap), and the flattened output of the
cyclic two-accessor heap contains the cycle marker. -/
theorem C9_to_dict_guards :
    (∀ (h : Heap) (a : Nat) (seen : List Nat),
        toDictAux h 0 a seen = .str "<Max depth exceeded>")
    ∧ (∀ (h : Heap) (budget : Nat) (a : Nat) (seen : List Nat),
        a ∈ seen → toDictAux h (budget + 1) a seen = .str "<Circular reference>")
    ∧ containsMarker (toDict cyclicHeap 0) "<Circular reference>" = true := by
  refine ⟨fun h a seen => rfl, ?_, rfl⟩
  intro h budget a seen hmem
  simp only [toDictAux]
  rw [if_pos hmem]

/-- C9 witness: the circular-path guard applied at a concrete address and
seen set. -/
theorem C9_to_dict_guards_witness :
    toDictAux [] 3 7 [7] = .str "<Circular reference>" :=
  C9_to_dict_guards.2.1 [] 2 7 [7] (by decide)

/-! # Round-trip of construction and flattening (claim C10) -/

mutual
/-- Accessor-nesting depth of a plain value under construction: a mapping
adds one level whether it is a field value or a direct sequence element;
nothing else is recursed into by `_to_dict`, so nothing else counts. -/
def depthFields : PyFields → Nat
  | .nil => 0
  | .cons _ v rest => max (depthValue v) (depthFields rest)

def depthValue : PyVal → Nat
  | .dict d => 1 + depthFields d
  | .list xs => depthItems xs
  | _ => 0

def depthItems : PyList → Nat
  | .nil => 0
  | .cons (.dict d) rest => max (1 + depthFields d) (depthItems rest)
  | .cons _ rest => depthItems rest
end

mutual
/-- Whether a plain value contains no `DictToObj` reference anywhere. -/
def refFreeFields : PyFields → Bool
  | .nil => true
  | .cons _ v rest => refFreeValue v && refFreeFields rest

def refFreeValue : PyVal → Bool
  | .ref _ => false
  | .list xs => refFreeList xs
  | .dict d => refFreeFields d
  | _ => true

def refFreeList : PyList → Bool
  | .nil => true
  | .cons x rest => refFreeValue x && refFreeList rest
end

mutual
/-- Whether every mapping nested anywhere in the value has unique keys. -/
def uniqKeysFields : PyFields → Bool
  | .nil => true
  | .cons k v rest =>
      !(decide (k ∈ keysList rest)) && uniqKeysValue v && uniqKeysFields rest

def uniqKeysValue : PyVal → Bool
  | .dict d => uniqKeysFields d
  | .list xs => uniqKeysList xs
  | _ => true

def uniqKeysList : PyList → Bool
  | .nil => true
  | .cons x rest => uniqKeysValue x && uniqKeysList rest
end

mutual
/-- Whether no key of any nested mapping collides with an attribute of
the `DictToObj` class. -/
def safeKeysFields : PyFields → Bool
  | .nil => true
  | .cons k v rest =>
      !(classAttrs.contains k) && safeKeysValue v && safeKeysFields rest

def safeKeysValue : PyVal → Bool
  | .dict d => safeKeysFields d
  | .list xs => safeKeysList xs
  | _ => true

def safeKeysList : PyList → Bool
  | .nil => true
  | .cons x rest => safeKeysValue x && safeKeysList rest
end

mutual
theorem buildFields_round : ∀ (d : PyFields) (h g : Heap) (budget : Nat)
    (seen : List Nat),
    refFreeFields d = true →
    HeapLE (buildFields d h).2 g →
    depthFields d ≤ budget →
    (∀ s ∈ seen, s < h.length ∨ (buildFields d h).2.length ≤ s) →
    convFields (fun a' => toDictAux g budget a' seen) (buildFields d h).1 = d
  | .nil, h, g, budget, seen, _, _, _, _ => rfl
  | .cons k v rest, h, g, budget, seen, hrf, hle, hd, hseen => by
      simp only [refFreeFields, Bool.and_eq_true] at hrf
      simp only [depthFields, max_le_iff] at hd
      have hleV : HeapLE (convertValue v h).2 g :=
        heapLE_trans (buildFields_ext rest (convertValue v h).2)
          (by simpa only [buildFields] using hle)
      have hseenV : ∀ s ∈ seen, s < h.length ∨ (convertValue v h).2.length ≤ s := by
        intro s hs
        refine (hseen s hs).imp id (fun h2 => le_trans ?_ h2)
        exact le_trans (heapLE_length (buildFields_ext rest (convertValue v h).2))
          (by simp only [buildFields]; exact le_refl _)
      have hseenR : ∀ s ∈ seen,
          s < (convertValue v h).2.length ∨
          (buildFields rest (convertValue v h).2).2.length ≤ s := by
        intro s hs
        refine (hseen s hs).imp
          (fun h1 => lt_of_lt_of_le h1 (heapLE_length (convertValue_ext v h)))
          (fun h2 => le_trans (by simp only [buildFields]; exact le_refl _) h2)
      simp only [buildFields, convFields]
      rw [convertValue_round v h g budget seen hrf.1 hleV hd.1 hseenV]
      rw [buildFields_round rest (convertValue v h).2 g budget seen hrf.2
        (by simpa only [buildFields] using hle) hd.2 hseenR]

theorem convertValue_round : ∀ (v : PyVal) (h g : Heap) (budget : Nat)
    (seen : List Nat),
    refFreeValue v = true →
    HeapLE (convertValue v h).2 g →
    depthValue v ≤ budget →
    (∀ s ∈ seen, s < h.length ∨ (convertValue v h).2.length ≤ s) →
    convValue (fun a' => toDictAux g budget a' seen) (convertValue v h).1 = v
  | .dict d, h, g, budget, seen, hrf, hle, hd, hseen => by
      simp only [refFreeValue] at hrf
      simp only [depthValue] at hd
      obtain _ | b := budget
      · omega
      simp only [convertValue] at hle hseen ⊢
      simp only [convValue]
      have hlen : h.length ≤ (buildFields d h).2.length :=
        heapLE_length (buildFields_ext d h)
      have hnotmem : (buildFields d h).2.length ∉ seen := by
        intro hmem
        rcases hseen _ hmem with h1 | h2
        · omega
        · simp only [List.length_append, List.length_cons, List.length_nil] at h2
          omega
      simp only [toDictAux]
      rw [if_neg hnotmem]
      have hfield : heapFields g (buildFields d h).2.length = (buildFields d h).1 := by
        rw [heapFields_stable hle (by simp), heapFields_snoc]
      rw [hfield]
      refine congrArg PyVal.dict
        (buildFields_round d h g b ((buildFields d h).2.length :: seen) hrf
          (heapLE_trans (heapLE_snoc _ _) hle) (by omega) ?_)
      intro s hs
      rcases List.mem_cons.mp hs with hs | hs
      · right
        omega
      · refine (hseen s hs).imp id (fun h2 => ?_)
        simp only [List.length_append, List.length_cons, List.length_nil] at h2
        omega
  | .list xs, h, g, budget, seen, hrf, hle, hd, hseen => by
      simp only [refFreeValue] at hrf
      simp only [depthValue] at hd
      simp only [convertValue] at hle hseen ⊢
      simp only [convValue]
      rw [convertItems_round xs h g budget seen hrf hle hd hseen]
  | .none, h, g, budget, seen, _, _, _, _ => rfl
  | .bool b, h, g, budget, seen, _, _, _, _ => rfl
  | .int n, h, g, budget, seen, _, _, _, _ => rfl
  | .str s, h, g, budget, seen, _, _, _, _ => rfl
  | .ref a, h, g, budget, seen, hrf, _, _, _ => by
      simp [refFreeValue] at hrf

theorem convertItems_round : ∀ (xs : PyList) (h g : Heap) (budget : Nat)
    (seen : List Nat),
    refFreeList xs = true →
    HeapLE (convertItems xs h).2 g →
    depthItems xs ≤ budget →
    (∀ s ∈ seen, s < h.length ∨ (convertItems xs h).2.length ≤ s) →
    convItems (fun a' => toDictAux g budget a' seen) (convertItems xs h).1 = xs
  | .nil, h, g, budget, seen, _, _, _, _ => rfl
  | .cons (.dict d) rest, h, g, budget, seen, hrf, hle, hd, hseen => by
      simp only [refFreeList, refFreeValue, Bool.and_eq_true] at hrf
      simp only [depthItems, max_le_iff] at hd
      obtain _ | b := budget
      · omega
      simp only [convertItems] at hle hseen ⊢
      have hlen1 : h.length ≤ (buildFields d h).2.length :=
        heapLE_length (buildFields_ext d h)
      have hlen2 : ((buildFields d h).2 ++ [(buildFields d h).1]).length ≤
          (convertItems rest ((buildFields d h).2 ++ [(buildFields d h).1])).2.length :=
        heapLE_length (convertItems_ext rest _)
      have hlen2' : (buildFields d h).2.length + 1 ≤
          (convertItems rest ((buildFields d h).2 ++ [(buildFields d h).1])).2.length := by
        simpa using hlen2
      have hnotmem : (buildFields d h).2.length ∉ seen := by
        intro hmem
        rcases hseen _ hmem with h1 | h2
        · omega
        · omega
      have hfield : heapFields g (buildFields d h).2.length = (buildFields d h).1 := by
        rw [heapFields_stable (heapLE_trans (convertItems_ext rest _) hle) (by simp),
          heapFields_snoc]
      have hseenH : ∀ s ∈ (buildFields d h).2.length :: seen,
          s < h.length ∨ (buildFields d h).2.length ≤ s := by
        intro s hs
        rcases List.mem_cons.mp hs with hs | hs
        · right
          omega
        · refine (hseen s hs).imp id (fun h2 => by omega)
      have hconvhead : toDictAux g (b + 1) (buildFields d h).2.length seen = .dict d := by
        simp only [toDictAux]
        rw [if_neg hnotmem, hfield]
        exact congrArg PyVal.dict
          (buildFields_round d h g b ((buildFields d h).2.length :: seen) hrf.1
            (heapLE_trans (heapLE_trans (heapLE_snoc _ _) (convertItems_ext rest _)) hle)
            (by omega) hseenH)
      have hseenR : ∀ s ∈ seen,
          s < ((buildFields d h).2 ++ [(buildFields d h).1]).length ∨
          (convertItems rest ((buildFields d h).2 ++ [(buildFields d h).1])).2.length ≤ s := by
        intro s hs
        refine (hseen s hs).imp (fun h1 => ?_) id
        simp only [List.length_append, List.length_cons, List.length_nil]
        omega
      simp only [convItems]
      rw [hconvhead,
        convertItems_round rest ((buildFields d h).2 ++ [(buildFields d h).1]) g
          (b + 1) seen hrf.2 hle hd.2 hseenR]
  | .cons .none rest, h, g, budget, seen, hrf, hle, hd, hseen => by
      simp only [refFreeList, Bool.and_eq_true] at hrf
      simp only [depthItems] at hd
      simp only [convertItems] at hle hseen ⊢
      simp only [convItems]
      rw [convertItems_round rest h g budget seen hrf.2 hle hd hseen]
  | .cons (.bool bb) rest, h, g, budget, seen, hrf, hle, hd, hseen => by
      simp only [refFreeList, Bool.and_eq_true] at hrf
      simp only [depthItems] at hd
      simp only [convertItems] at hle hseen ⊢
      simp only [convItems]
      rw [convertItems_round rest h g budget seen hrf.2 hle hd hseen]
  | .cons (.int n) rest, h, g, budget, seen, hrf, hle, hd, hseen => by
      simp only [refFreeList, Bool.and_eq_true] at hrf
      simp only [depthItems] at hd
      simp only [convertItems] at hle hseen ⊢
      simp only [convItems]
      rw [convertItems_round rest h g budget seen hrf.2 hle hd hseen]
  | .cons (.str s) rest, h, g, budget, seen, hrf, hle, hd, hseen => by
      simp only [refFreeList, Bool.and_eq_true] at hrf
      simp only [depthItems] at hd
      simp only [convertItems] at hle hseen ⊢
      simp only [convItems]
      rw [convertItems_round rest h g budget seen hrf.2 hle hd hseen]
  | .cons (.list ys) rest, h, g, budget, seen, hrf, hle, hd, hseen => by
      simp only [refFreeList, Bool.and_eq_true] at hrf
      simp only [depthItems] at hd
      simp only [convertItems] at hle hseen ⊢
      simp only [convItems]
      rw [convertItems_round rest h g budget seen hrf.2 hle hd hseen]
  | .cons (.ref a) rest, h, g, budget, seen, hrf, _, _, _ => by
      simp [refFreeList, refFreeValue] at hrf
end

/-- C10: for every plain nested value built from mappings, lists and
scalars (no accessor references), with unique mapping keys, keys avoiding
the `DictToObj` class attributes, and accessor-nesting depth at most 100,
flattening the constructed accessor returns the original mapping:
`DictToObj(d)._to_dict() == d`. -/
theorem C10_round_trip (d : PyFields)
    (h1 : refFreeFields d = true)
    (_h2 : uniqKeysFields d = true)
    (_h3 : safeKeysFields d = true)
    (h4 : depthFields d ≤ 100) :
    toDict (constructObj d []).2 (constructObj d []).1 = .dict d := by
  have hseen : ∀ s ∈ [(constructObj d []).1],
      s < ([] : Heap).length ∨ (buildFields d []).2.length ≤ s := by
    intro s hs
    rcases List.mem_cons.mp hs with hs | hs
    · right
      exact le_of_eq hs.symm
    · simp at hs
  have hmain := buildFields_round d [] (constructObj d []).2 100
    [(constructObj d []).1] h1 (heapLE_snoc _ _) h4 hseen
  show PyVal.dict
      (convFields
        (fun a' => toDictAux (constructObj d []).2 100 a' [(constructObj d []).1])
        (heapFields (constructObj d []).2 (constructObj d []).1)) = .dict d
  rw [show heapFields (constructObj d []).2 (constructObj d []).1 =
        (buildFields d []).1 from heapFields_snoc _ _]
  exact congrArg PyVal.dict hmain

/-- A concrete nested demo value for the round-trip witness. -/
def roundTripDemo : PyFields :=
  pyF [("a", .int 1),
       ("b", .dict (pyF [("c", .str "x"), ("d", PyVal.none)])),
       ("l", .list (pyL [.dict (pyF [("e", .int 2)]), .int 3,
                         .list (pyL [.dict (pyF [("f", .int 4)])])]))]

/-- C10 witness: the round trip applied to the concrete demo value, all
hypotheses discharged by evaluation. -/
theorem C10_round_trip_witness :
    toDict (constructObj roundTripDemo []).2 (constructObj roundTripDemo []).1 =
      .dict roundTripDemo :=
  C10_round_trip roundTripDemo (by decide) (by decide) (by decide) (by decide)
